import Mathlib

/-!
Verification of the live-visualization core of the seacharts repository.

The development shallowly embeds the code of
`seacharts/display/display.py` (the `Display` class: `update_plot`,
`init_visualization_loop`, `save_frame`, `__init__` and
`draw_environment`), `seacharts/settings.py` (`read_ship_poses`) and
`seacharts/seacharts.py` (`ENC.save_visualization`), and proves the
specified properties of the reconcile loop, the session loop, the frame
naming scheme and the animation assembly.
-/

namespace Seacharts

/-- Modelled from the spec: the polygonal hull of a pose.  The entity class
deriving the hull polygon from position and heading
(`seacharts.features.Ship`) is not among the included sources; the spec
treats the geometry as opaque input, so a hull is represented here by the
placement triple (x, y, heading) that determines it. -/

abbrev Hull : Type := ℚ × ℚ × ℚ

/-- Modelled from the spec: a pose record as consumed by
`Display.update_plot`, carrying the `name` attribute (used once, at slot
creation, to fix the slot's color) and the derived polygonal `hull` of the
entity class `seacharts.features.Ship`, which is not among the included
sources. -/

structure Pose where
  name : String
  hull : Hull
deriving Repr, DecidableEq, Inhabited

/-- Modelled from the spec: the rendering color derived from a feature or
entity name (`seacharts.display.colors.color` is not among the included
sources); an unspecified but fixed tagging of the name. -/

def color (name : String) : String := String.append "color-" name

/-- A matplotlib Polygon patch as used by `Display.update_plot`: face and
edge colors are fixed at construction (`fc=clr, ec=clr`), the vertex data
is mutated by `set_xy`, and the visibility flag by `set_visible`. -/

structure Patch where
  fc : String
  ec : String
  xy : Hull
  visible : Bool
deriving Repr, DecidableEq, Inhabited

/-- First conditional of the loop body of `Display.update_plot`
(display.py, `if i >= len(self.ships)`): when the index reaches past the
current ship list, a patch for `poses[i]` is created with its color taken
from `poses[i].name` and appended; an out-of-range access `poses[i]` is
modelled by `none` (Python IndexError). -/

def growStep (poses : List Pose) (ships : List Patch) (i : Nat) : Option (List Patch) :=
  if ships.length ≤ i then
    match poses[i]? with
    | some new_ship =>
        some (ships ++ [{ fc := color new_ship.name, ec := color new_ship.name,
                          xy := new_ship.hull, visible := true }])
    | none => none
  else some ships

/-- Second conditional of the loop body of `Display.update_plot`
(display.py, `if i < len(poses) ... else ...`): the slot at index `i` is
either updated to the current pose hull and made visible, or hidden;
`none` again models an IndexError on `self.ships[i]`. -/

def setStep (poses : List Pose) (ships : List Patch) (i : Nat) : Option (List Patch) :=
  if i < poses.length then
    match poses[i]?, ships[i]? with
    | some p, some patch => some (ships.set i { patch with xy := p.hull, visible := true })
    | _, _ => none
  else
    match ships[i]? with
    | some patch => some (ships.set i { patch with visible := false })
    | none => none

/-- One iteration of the reconcile loop of `Display.update_plot`. -/

def stepShip (poses : List Pose) (ships : List Patch) (i : Nat) : Option (List Patch) :=
  (growStep poses ships i).bind fun ships1 => setStep poses ships1 i

/-- The reconcile loop of `Display.update_plot`:
`for i in range(max(len(poses), len(self.ships)))` over the loop body,
threading the mutated `self.ships` list (the range bound is evaluated once,
on the initial list, exactly as Python evaluates the `range` argument). -/

def update_ships (poses : List Pose) (ships : List Patch) : Option (List Patch) :=
  List.foldlM (stepShip poses) ships (List.range (max poses.length ships.length))

/-- The patch that ends up at index `j` after one reconcile pass, as a
function of the pose list and the initial ship list. -/

def finalEntry (poses : List Pose) (s0 : List Patch) (j : Nat) : Patch :=
  match poses[j]?, s0[j]? with
  | some p, some old => { old with xy := p.hull, visible := true }
  | some p, none => { fc := color p.name, ec := color p.name, xy := p.hull, visible := true }
  | none, some old => { old with visible := false }
  | none, none => default

/-- Intermediate loop state: entry at index `j` once indices below `i` have
been processed. -/

def specEntry (poses : List Pose) (s0 : List Patch) (i j : Nat) : Patch :=
  if j < i then finalEntry poses s0 j else (s0[j]?).getD default

/-- The ship list after the loop of `update_ships` has processed indices
`0..i-1`. -/

def specState (poses : List Pose) (s0 : List Patch) (i : Nat) : List Patch :=
  (List.range (max s0.length (min i poses.length))).map (specEntry poses s0 i)

/-- Closed form of a full reconcile pass. -/

def reconcileSpec (poses : List Pose) (s0 : List Patch) : List Patch :=
  (List.range (max poses.length s0.length)).map (finalEntry poses s0)

/-- A sequence of reconcile calls of `Display.update_plot` (each with a
non-absent pose list), threading `self.ships`. -/

def runReconciles : List (List Pose) → List Patch → Option (List Patch)
  | [], ships => some ships
  | poses :: rest, ships =>
    match update_ships poses ships with
    | none => none
    | some ships2 => runReconciles rest ships2

/-- Fuel-driven big-endian decimal digit expansion; with sufficient fuel
this is the digit list of Python's `str(i)` for a nonnegative integer. -/

def decDigitsAux : Nat → Nat → List Nat
  | 0, _ => []
  | fuel + 1, n => if n < 10 then [n] else decDigitsAux fuel (n / 10) ++ [n % 10]

/-- The decimal digits of `n` (big-endian). -/

def decDigits (n : Nat) : List Nat := decDigitsAux (n + 1) n

def digitChar (d : Nat) : Char := Char.ofNat (48 + d)

/-- The frame file name computed by `Display.save_frame`:
`name = ''.join(['0' for _ in range(5 - len(str(i)))]) + str(i)` — the
decimal representation of `i` left-padded with zeros to length 5
(Python's `range` of a negative count is empty, matching Nat
subtraction). -/

def frameChars (i : Nat) : List Char :=
  List.replicate (5 - (decDigits i).length) (Char.ofNat 48) ++ (decDigits i).map digitChar

def frameName (i : Nat) : String := String.mk (frameChars i)

/-- Numeric value of a big-endian digit list. -/

def val (ds : List Nat) : Nat := ds.foldl (fun a d => 10 * a + d) 0

/-- The digit list of a frame name before mapping to characters. -/

def padDigits (i : Nat) : List Nat :=
  List.replicate (5 - (decDigits i).length) 0 ++ decDigits i

/-- Renderer-side events emitted during one tick of the session loop
(`Display.init_visualization_loop` plus `Display.update_plot`). -/

inductive Ev where
  | restore
  | draw
  | saveFrame (name : String)
  | pauseEv
  | closeEv
deriving Repr, DecidableEq

/-- External observations one loop iteration depends on: the liveness flag
at the top of the loop, the result of `config.read_ship_poses()` (with
`none` for the absent value), and the liveness flag at the draw check
inside `update_plot`. -/

structure TickIn where
  activeTop : Bool
  readResult : Option (List Pose)
  activeDraw : Bool

/-- `Display.update_plot`: when the read reports the absent value the body
is skipped entirely; otherwise the background is restored, the reconcile
loop runs over `self.ships`, and the canvas is redrawn if the figure is
still active.  Returns the new ship list and the renderer events, in
order; `none` propagates an IndexError from the reconcile loop. -/

def update_plot (readResult : Option (List Pose)) (activeDraw : Bool)
    (ships : List Patch) : Option (List Patch × List Ev) :=
  match readResult with
  | none => some (ships, [])
  | some poses =>
    match update_ships poses ships with
    | none => none
    | some ships2 =>
        some (ships2, Ev.restore :: (if activeDraw then [Ev.draw] else []))

/-- `Display.init_visualization_loop` run over a finite schedule of tick
observations: while the figure is active, each iteration pauses, runs
`update_plot`, saves frame `count` and increments the counter; a dead
liveness flag closes the session.  Returns the final counter, ship list
and the emitted events. -/

def init_visualization_loop :
    List TickIn → Nat → List Patch → Option (Nat × List Patch × List Ev)
  | [], count, ships => some (count, ships, [])
  | t :: ts, count, ships =>
    if t.activeTop then
      (update_plot t.readResult t.activeDraw ships).bind fun pr =>
        (init_visualization_loop ts (count + 1) pr.1).bind fun res =>
          some (res.1, res.2.1,
            Ev.pauseEv :: (pr.2 ++ Ev.saveFrame (frameName count) :: res.2.2))
    else
      some (count, ships, [Ev.closeEv])

/-- The frame-file name carried by a save event, if any. -/

def savedName : Ev → Option String
  | Ev.saveFrame n => some n
  | _ => none

/-- The observable steps of `Display.__init__` and `Display.draw_environment`. -/

inductive InitEv where
  | formatColorbar
  | formatTopography
  | copyBackground
  | drawFeature (name : String)
  | initEventManager
deriving Repr, DecidableEq

/-- `Display.draw_environment`: every environment feature except Seabed is
loaded and added to the topography axes. -/

def draw_environment (features : List String) : List InitEv :=
  features.filterMap fun nm =>
    if nm = "Seabed" then none else some (InitEv.drawFeature nm)

/-- The order of operations in `Display.__init__`: the colorbar and the
topography axes are formatted, the background raster is captured with
`copy_from_bbox`, `self.ships` is initialised, `draw_environment` renders
the static layers and finally the event manager and the loop start. -/

def display_init (features : List String) : List InitEv :=
  [InitEv.formatColorbar, InitEv.formatTopography, InitEv.copyBackground]
    ++ draw_environment features ++ [InitEv.initEventManager]

/-- The environment feature layers in iteration order
(`settings._environment_features`). -/

def stdFeatures : List String := ["Seabed", "Land", "Shore", "Shallows", "Rocks"]

/-- The Python exceptions relevant to the embedded code paths. -/

inductive PyErr where
  | permissionError
  | fileNotFoundError
  | stopIteration
  | valueError
  | typeError
  | indexError
deriving Repr, DecidableEq

instance exceptDecEq {ε α : Type} [DecidableEq ε] [DecidableEq α] :
    DecidableEq (Except ε α) := fun x y =>
  match x, y with
  | Except.ok a, Except.ok b =>
      if h : a = b then isTrue (by rw [h]) else
        isFalse (by intro hc; injection hc; contradiction)
  | Except.error e, Except.error f =>
      if h : e = f then isTrue (by rw [h]) else
        isFalse (by intro hc; injection hc; contradiction)
  | Except.ok _, Except.error _ => isFalse (fun hc => Except.noConfusion hc)
  | Except.error _, Except.ok _ => isFalse (fun hc => Except.noConfusion hc)

/-- A CSV cell as seen by `float(v)`: either text that parses to a number,
or text on which `float` raises ValueError. -/

inductive Cell where
  | num (q : ℚ)
  | junk
deriving Repr, DecidableEq

/-- Python `float(v)` on one cell. -/

def floatOf : Cell → Except PyErr ℚ
  | Cell.num q => Except.ok q
  | Cell.junk => Except.error PyErr.valueError

/-- The state of the pose source file `data/ships.csv` at the moment of
the read: locked by a concurrent writer (`open` raises PermissionError),
missing (`open` raises FileNotFoundError), or present with its CSV rows,
header row included. -/

inductive FileState where
  | locked
  | missing
  | content (rows : List (List Cell))

/-- Modelled from the spec: construction of one Ship entity,
`Ship(*(float(v) for v in row))` — the entity class
`seacharts.features.Ship` is not among the included sources.  The pose
source carries rows of (x_position, y_position, heading), so a row of any
other arity fails the constructor call with a TypeError; the class name
Ship supplies the pose's name and the hull is derived from the
placement. -/

def mkShip (vals : List ℚ) : Except PyErr Pose :=
  match vals with
  | [x, y, heading] => Except.ok (Pose.mk "Ship" (x, y, heading))
  | _ => Except.error PyErr.typeError

def shipOfRow (row : List Cell) : Except PyErr Pose :=
  (row.mapM floatOf).bind mkShip

/-- `read_ship_poses` of `seacharts/settings.py`: open the csv file, skip
the header with `next(reader)` (StopIteration on a file with no rows),
materialise the remaining rows and build one Ship per row; only
PermissionError is caught (returning the absent value None) — every other
failure propagates to the caller. -/

def read_ship_poses : FileState → Except PyErr (Option (List Pose))
  | FileState.locked => Except.ok none
  | FileState.missing => Except.error PyErr.fileNotFoundError
  | FileState.content [] => Except.error PyErr.stopIteration
  | FileState.content (_ :: rows) => (rows.mapM shipOfRow).map some

/-- A file matched by the frame-file glob: its path and, when PIL can open
it, its image content (`none` models `PIL.UnidentifiedImageError`). -/

structure FrameFile where
  path : String
  image : Option String
deriving Repr, DecidableEq

/-- The image-opening loop of `ENC.save_visualization`: every globbed file
is opened in glob order, unreadable files are skipped non-fatally. -/

def openImages (files : List FrameFile) : List String :=
  files.filterMap FrameFile.image

/-- `ENC.save_visualization` (seacharts.py): glob the frame paths, open
the images (skipping unreadable files), unpack
`frame1, *frames = images` (ValueError on an empty list), build
`frames = [frame1]*fps + frames + [frames[-1]]*fps` (`frames[-1]` raises
IndexError when `frames` is empty, i.e. when exactly one image was
opened, regardless of fps) and save the GIF as `frame1` followed by
`frames`.  The result is the full frame sequence of the animation, in the
order the glob returned the files — the code never sorts
`frame_paths`. -/

def save_visualization (fps : Nat) (files : List FrameFile) : Except PyErr (List String) :=
  match openImages files with
  | [] => Except.error PyErr.valueError
  | frame1 :: frames =>
    match frames.getLast? with
    | none => Except.error PyErr.indexError
    | some last =>
        Except.ok (frame1 :: (List.replicate fps frame1 ++ frames ++ List.replicate fps last))

/-- Byte-wise lexicographic strict order on character lists; agrees with
the standard order on strings (see `lexLtB_iff`). -/

def lexLtB : List Char → List Char → Bool
  | [], [] => false
  | [], _ :: _ => true
  | _ :: _, [] => false
  | c :: cs, d :: ds =>
      if c.toNat < d.toNat then true
      else if d.toNat < c.toNat then false
      else lexLtB cs ds

def pathLtB (f g : FrameFile) : Bool := lexLtB f.path.data g.path.data

def insertByPath (f : FrameFile) : List FrameFile → List FrameFile
  | [] => [f]
  | g :: gs => if pathLtB f g then f :: g :: gs else g :: insertByPath f gs

def sortByPath : List FrameFile → List FrameFile
  | [] => []
  | f :: fs => insertByPath f (sortByPath fs)

/-- The assembly order asserted by the claim (this follows the words of
the spec, not the code): the same assembly, but over the frame files in
lexical-sort order of their paths. -/

def save_visualization_claimed (fps : Nat) (files : List FrameFile) :
    Except PyErr (List String) :=
  save_visualization fps (sortByPath files)

/-- C1 witness: pose-count sequence 1, 0 — after the second call the slot
count is still max(1, 0) = 1, and the running max is monotone. -/

theorem option_bind_some {α β : Type} (a : α) (f : α → Option β) :
    (some a).bind f = f a := rfl

theorem getElem?_range_map {α : Type} (f : Nat → α) (k j : Nat) :
    ((List.range k).map f)[j]? = if j < k then some (f j) else none := by
  rcases Nat.lt_or_ge j k with h | h
  · rw [if_pos h, List.getElem?_map, List.getElem?_range h]
    rfl
  · rw [if_neg (Nat.not_lt.mpr h), List.getElem?_map,
      List.getElem?_eq_none (by simpa using h)]
    rfl

theorem length_specState (poses : List Pose) (s0 : List Patch) (i : Nat) :
    (specState poses s0 i).length = max s0.length (min i poses.length) := by
  simp [specState]

theorem getElem?_specState (poses : List Pose) (s0 : List Patch) (i j : Nat) :
    (specState poses s0 i)[j]? =
      if j < max s0.length (min i poses.length) then some (specEntry poses s0 i j)
      else none :=
  getElem?_range_map (specEntry poses s0 i) _ j

theorem length_reconcileSpec (poses : List Pose) (s0 : List Patch) :
    (reconcileSpec poses s0).length = max poses.length s0.length := by
  simp [reconcileSpec]

theorem getElem?_reconcileSpec (poses : List Pose) (s0 : List Patch) (j : Nat) :
    (reconcileSpec poses s0)[j]? =
      if j < max poses.length s0.length then some (finalEntry poses s0 j) else none :=
  getElem?_range_map (finalEntry poses s0) _ j

theorem specState_zero (poses : List Pose) (s0 : List Patch) :
    specState poses s0 0 = s0 := by
  apply List.ext_getElem?
  intro j
  rw [getElem?_specState]
  have hmm : max s0.length (min 0 poses.length) = s0.length := by omega
  rw [hmm]
  rcases Nat.lt_or_ge j s0.length with h | h
  · rw [if_pos h, List.getElem?_eq_getElem h]
    simp [specEntry, List.getElem?_eq_getElem h]
  · rw [if_neg (Nat.not_lt.mpr h), List.getElem?_eq_none (by simpa using h)]

theorem specState_top (poses : List Pose) (s0 : List Patch) :
    specState poses s0 (max poses.length s0.length) = reconcileSpec poses s0 := by
  unfold specState reconcileSpec
  have hmm : max s0.length (min (max poses.length s0.length) poses.length)
      = max poses.length s0.length := by omega
  rw [hmm]
  apply List.map_congr_left
  intro j hj
  have hjn : j < max poses.length s0.length := List.mem_range.mp hj
  simp only [specEntry, if_pos hjn]

theorem setStep_in (poses : List Pose) (ships : List Patch) (i : Nat) (p : Pose)
    (patch : Patch) (him : i < poses.length) (hp : poses[i]? = some p)
    (hq : ships[i]? = some patch) :
    setStep poses ships i = some (ships.set i { patch with xy := p.hull, visible := true }) := by
  rw [setStep, if_pos him, hp, hq]

theorem setStep_out (poses : List Pose) (ships : List Patch) (i : Nat)
    (patch : Patch) (him : ¬ i < poses.length) (hq : ships[i]? = some patch) :
    setStep poses ships i = some (ships.set i { patch with visible := false }) := by
  rw [setStep, if_neg him, hq]

theorem stepShip_spec (poses : List Pose) (s0 : List Patch) (i : Nat)
    (hi : i < max poses.length s0.length) :
    stepShip poses (specState poses s0 i) i = some (specState poses s0 (i + 1)) := by
  by_cases hA : max s0.length (min i poses.length) ≤ i
  · -- the loop index has reached past the current ship list: append branch
    have hs : s0.length ≤ i := by omega
    have him : i < poses.length := by omega
    have hp : poses[i]? = some poses[i] := List.getElem?_eq_getElem him
    have hs0 : s0[i]? = none := List.getElem?_eq_none (by omega)
    have hL : max s0.length (min i poses.length) = i := by omega
    have hL1 : max s0.length (min (i + 1) poses.length) = i + 1 := by omega
    have hlen : (specState poses s0 i).length = i := by
      rw [length_specState]; omega
    set newP : Patch :=
      { fc := color poses[i].name, ec := color poses[i].name,
        xy := poses[i].hull, visible := true } with hnewP
    have hgrow : growStep poses (specState poses s0 i) i
        = some (specState poses s0 i ++ [newP]) := by
      rw [growStep, if_pos hlen.le, hp]
    have hidx : (specState poses s0 i ++ [newP])[i]? = some newP := by
      rw [List.getElem?_append_right hlen.le, hlen, Nat.sub_self]
      rfl
    have hupd : { newP with xy := poses[i].hull, visible := true } = newP := rfl
    rw [stepShip, hgrow, option_bind_some,
      setStep_in poses (specState poses s0 i ++ [newP]) i poses[i] newP him hp hidx, hupd]
    apply congrArg
    apply List.ext_getElem?
    intro j
    simp only [List.getElem?_set, List.getElem?_append, getElem?_specState, length_specState,
      List.length_append, List.length_cons, List.length_nil, hL, hL1]
    by_cases hij : i = j
    · subst hij
      rw [if_pos rfl, if_pos (Nat.lt_succ_self i), if_pos (Nat.lt_succ_self i)]
      simp [hnewP, specEntry, finalEntry, hp, hs0, Nat.lt_succ_self]
    · rw [if_neg hij]
      by_cases hji : j < i
      · rw [if_pos hji, if_pos (by omega)]
        simp [specEntry, hji, show j < i + 1 by omega]
      · rw [if_neg hji, if_neg (by omega)]
        rw [List.getElem?_eq_none (by simp; omega)]
  · -- the slot at index i already exists: pure update branch
    push_neg at hA
    have his : i < s0.length := by omega
    have hs0i : s0[i]? = some s0[i] := List.getElem?_eq_getElem his
    have hL : max s0.length (min i poses.length) = s0.length := by omega
    have hL1 : max s0.length (min (i + 1) poses.length) = s0.length := by omega
    have hgrow : growStep poses (specState poses s0 i) i = some (specState poses s0 i) := by
      rw [growStep, if_neg (by rw [length_specState]; omega)]
    have hidx : (specState poses s0 i)[i]? = some s0[i] := by
      rw [getElem?_specState, if_pos (by omega)]
      simp [specEntry, hs0i]
    by_cases him : i < poses.length
    · have hp : poses[i]? = some poses[i] := List.getElem?_eq_getElem him
      rw [stepShip, hgrow, option_bind_some,
        setStep_in poses (specState poses s0 i) i poses[i] s0[i] him hp hidx]
      apply congrArg
      apply List.ext_getElem?
      intro j
      simp only [List.getElem?_set, getElem?_specState, length_specState, hL, hL1]
      by_cases hij : i = j
      · subst hij
        rw [if_pos rfl, if_pos his, if_pos his]
        simp [specEntry, finalEntry, hp, hs0i, Nat.lt_succ_self]
      · rw [if_neg hij]
        by_cases hjs : j < s0.length
        · rw [if_pos hjs, if_pos hjs]
          apply congrArg
          simp only [specEntry]
          by_cases hji : j < i
          · rw [if_pos hji, if_pos (by omega)]
          · rw [if_neg hji, if_neg (by omega)]
        · rw [if_neg hjs, if_neg hjs]
    · have hp : poses[i]? = none := List.getElem?_eq_none (by omega)
      rw [stepShip, hgrow, option_bind_some,
        setStep_out poses (specState poses s0 i) i s0[i] him hidx]
      apply congrArg
      apply List.ext_getElem?
      intro j
      simp only [List.getElem?_set, getElem?_specState, length_specState, hL, hL1]
      by_cases hij : i = j
      · subst hij
        rw [if_pos rfl, if_pos his, if_pos his]
        simp [specEntry, finalEntry, hp, hs0i, Nat.lt_succ_self]
      · rw [if_neg hij]
        by_cases hjs : j < s0.length
        · rw [if_pos hjs, if_pos hjs]
          apply congrArg
          simp only [specEntry]
          by_cases hji : j < i
          · rw [if_pos hji, if_pos (by omega)]
          · rw [if_neg hji, if_neg (by omega)]
        · rw [if_neg hjs, if_neg hjs]

theorem foldlM_stepShip (poses : List Pose) (s0 : List Patch) :
    ∀ (k i : Nat), i + k = max poses.length s0.length →
      List.foldlM (stepShip poses) (specState poses s0 i) (List.range' i k)
        = some (specState poses s0 (max poses.length s0.length))
  | 0, i, h => by
      rw [show List.range' i 0 = [] from rfl, List.foldlM_nil,
        show i = max poses.length s0.length by omega]
      rfl
  | k + 1, i, h => by
      have hi : i < max poses.length s0.length := by omega
      rw [List.range'_succ, List.foldlM_cons, stepShip_spec poses s0 i hi]
      exact foldlM_stepShip poses s0 k (i + 1) (by omega)

/-- The reconcile loop always succeeds and computes the closed form. -/
theorem update_ships_eq (poses : List Pose) (s0 : List Patch) :
    update_ships poses s0 = some (reconcileSpec poses s0) := by
  have h0 := foldlM_stepShip poses s0 (max poses.length s0.length) 0 (by omega)
  rw [specState_zero, specState_top] at h0
  rw [update_ships, List.range_eq_range']
  exact h0

theorem runReconciles_length (css : List (List Pose)) :
    ∀ s0 : List Patch, ∃ r, runReconciles css s0 = some r ∧
      r.length = (css.map List.length).foldl (fun a c => max a c) s0.length := by
  induction css with
  | nil => intro s0; exact ⟨s0, rfl, rfl⟩
  | cons poses rest ih =>
      intro s0
      obtain ⟨r, hr, hlen⟩ := ih (reconcileSpec poses s0)
      refine ⟨r, ?_, ?_⟩
      · show (match update_ships poses s0 with
            | none => none
            | some ships2 => runReconciles rest ships2) = some r
        rw [update_ships_eq]
        exact hr
      · simp only [List.map_cons, List.foldl_cons]
        rw [hlen, length_reconcileSpec, Nat.max_comm]

theorem foldl_max_acc_le (l : List Nat) : ∀ a : Nat, a ≤ l.foldl (fun a c => max a c) a := by
  induction l with
  | nil => intro a; exact Nat.le_refl a
  | cons x l ih => intro a; exact le_trans (Nat.le_max_left a x) (ih (max a x))

/-- C1: for every sequence of reconcile calls (`Display.update_plot` with a
non-absent pose list) with pose-count sequence c_1, ..., c_k, the slot
count after call i equals max(c_1..c_i); in particular the slot count
never decreases, even when a read reports fewer poses than before. -/
theorem slot_count_is_running_max (css : List (List Pose)) (k : Nat) :
    (∃ r, runReconciles (css.take k) [] = some r ∧
        r.length = ((css.take k).map List.length).foldl (fun a c => max a c) 0) ∧
    (∀ k2, k ≤ k2 →
      ((css.take k).map List.length).foldl (fun a c => max a c) 0 ≤
        ((css.take k2).map List.length).foldl (fun a c => max a c) 0) := by
  constructor
  · simpa using runReconciles_length (css.take k) []
  · intro k2 hk
    have h1 := List.take_append_drop k (css.take k2)
    rw [List.take_take, Nat.min_eq_left hk] at h1
    rw [← h1, List.map_append, List.foldl_append]
    exact foldl_max_acc_le _ _

theorem reconcileSpec_nil (l : List Patch) :
    reconcileSpec [] l = l.map (fun p => { p with visible := false }) := by
  apply List.ext_getElem?
  intro j
  rw [getElem?_reconcileSpec, List.getElem?_map]
  have hmm : max ([] : List Pose).length l.length = l.length := by simp
  rw [hmm]
  rcases Nat.lt_or_ge j l.length with h | h
  · rw [if_pos h, List.getElem?_eq_getElem h]
    simp [finalEntry, List.getElem?_eq_getElem h]
  · rw [if_neg (Nat.not_lt.mpr h), List.getElem?_eq_none (by simpa using h)]
    rfl

theorem hide_idem (l : List Patch) :
    (l.map (fun p => { p with visible := false })).map (fun p => { p with visible := false })
      = l.map (fun p => { p with visible := false }) := by
  rw [List.map_map]
  apply List.map_congr_left
  intro p _
  rfl

/-- C2: after one reconcile step of `Display.update_plot` with a pose list
of length m, every slot at index below m has its geometry set to the hull
of the pose at the same index and is visible, every slot at an index from
m on is invisible; reconciling with an empty (but present) pose list
leaves the slot count unchanged, makes all slots invisible, and is safe to
repeat. -/
theorem reconcile_visibility_correct (poses : List Pose) (ships r : List Patch)
    (h : update_ships poses ships = some r) :
    (∀ (j : Nat) (q : Pose), poses[j]? = some q →
        ∃ p : Patch, r[j]? = some p ∧ p.xy = q.hull ∧ p.visible = true) ∧
    (∀ (j : Nat) (p : Patch), poses.length ≤ j → r[j]? = some p → p.visible = false) ∧
    (poses = [] → r.length = ships.length ∧ update_ships [] r = some r) := by
  rw [update_ships_eq] at h
  injection h with h
  subst h
  refine ⟨?_, ?_, ?_⟩
  · intro j q hq
    have hj : j < poses.length := (List.getElem?_eq_some.mp hq).1
    refine ⟨finalEntry poses ships j, ?_, ?_⟩
    · rw [getElem?_reconcileSpec, if_pos (by omega)]
    · rcases hsj : ships[j]? with _ | old <;> simp [finalEntry, hq, hsj]
  · intro j p hjm hp
    rw [getElem?_reconcileSpec] at hp
    by_cases hjx : j < max poses.length ships.length
    · rw [if_pos hjx] at hp
      have hpj : poses[j]? = none := List.getElem?_eq_none hjm
      have hjs : j < ships.length := by omega
      have hsj : ships[j]? = some ships[j] := List.getElem?_eq_getElem hjs
      have hfe : p = finalEntry poses ships j := by
        injection hp with h2
        exact h2.symm
      rw [hfe]
      simp [finalEntry, hpj, hsj]
    · rw [if_neg hjx] at hp
      exact absurd hp (by simp)
  · intro hnil
    subst hnil
    rw [reconcileSpec_nil]
    refine ⟨by simp, ?_⟩
    rw [update_ships_eq, reconcileSpec_nil, hide_idem]

/-- C2 witness: one pose reconciled into an empty registry yields a
visible slot 0 carrying that pose's hull. -/
theorem reconcile_visibility_correct_witness :
    ∃ p : Patch, (reconcileSpec [Pose.mk "A" (1, 2, 3)] [])[0]? = some p ∧
      p.xy = ((1 : ℚ), (2 : ℚ), (3 : ℚ)) ∧ p.visible = true :=
  (reconcile_visibility_correct [Pose.mk "A" (1, 2, 3)] []
      (reconcileSpec [Pose.mk "A" (1, 2, 3)] []) rfl).1 0 (Pose.mk "A" (1, 2, 3)) rfl

/-- C7: a slot's rendering color is computed exactly once, from the name
of the pose occupying that index when the slot is created, and no later
reconcile call changes it; reconcile mutates only geometry and
visibility. -/
theorem slot_color_fixed_at_creation (poses : List Pose) (ships r : List Patch)
    (h : update_ships poses ships = some r) :
    (∀ (j : Nat) (p0 : Patch), ships[j]? = some p0 →
        ∃ p : Patch, r[j]? = some p ∧ p.fc = p0.fc ∧ p.ec = p0.ec) ∧
    (∀ (j : Nat) (q : Pose), ships[j]? = none → poses[j]? = some q →
        r[j]? = some (Patch.mk (color q.name) (color q.name) q.hull true)) := by
  rw [update_ships_eq] at h
  injection h with h
  subst h
  constructor
  · intro j p0 hj
    have hjs : j < ships.length := (List.getElem?_eq_some.mp hj).1
    refine ⟨finalEntry poses ships j, ?_, ?_⟩
    · rw [getElem?_reconcileSpec, if_pos (by omega)]
    · rcases hpj : poses[j]? with _ | q <;> simp [finalEntry, hpj, hj]
  · intro j q hn hq
    have hjm : j < poses.length := (List.getElem?_eq_some.mp hq).1
    rw [getElem?_reconcileSpec, if_pos (by omega)]
    simp [finalEntry, hq, hn]

/-- C7 witness: a slot created for a pose named B carries the color
derived from B. -/
theorem slot_color_fixed_at_creation_witness :
    (reconcileSpec [Pose.mk "B" (4, 5, 6)] [])[0]?
      = some (Patch.mk (color "B") (color "B") ((4 : ℚ), (5 : ℚ), (6 : ℚ)) true) :=
  (slot_color_fixed_at_creation [Pose.mk "B" (4, 5, 6)] []
      (reconcileSpec [Pose.mk "B" (4, 5, 6)] []) rfl).2 0 (Pose.mk "B" (4, 5, 6)) rfl rfl

/-- C9: the reconcile loop of `Display.update_plot` never indexes past the
end of the pose list: for every pose list and slot list the loop runs to
completion (an out-of-bounds index access is modelled by `none`), and the
resulting slot count is max(len(poses), len(ships)). -/
theorem reconcile_total_no_index_error (poses : List Pose) (ships : List Patch) :
    ∃ r, update_ships poses ships = some r ∧ r.length = max poses.length ships.length :=
  ⟨reconcileSpec poses ships, update_ships_eq poses ships, length_reconcileSpec poses ships⟩

theorem val_foldl (ds : List Nat) :
    ∀ a : Nat, ds.foldl (fun a d => 10 * a + d) a = a * 10 ^ ds.length + val ds := by
  induction ds with
  | nil => intro a; simp [val]
  | cons d ds ih =>
      intro a
      simp only [List.foldl_cons, List.length_cons]
      rw [ih (10 * a + d), show val (d :: ds) = List.foldl (fun a d => 10 * a + d) (10 * 0 + d) ds from rfl,
        ih (10 * 0 + d)]
      ring

theorem val_cons (d : Nat) (ds : List Nat) :
    val (d :: ds) = d * 10 ^ ds.length + val ds := by
  rw [show val (d :: ds) = List.foldl (fun a d => 10 * a + d) (10 * 0 + d) ds from rfl,
    val_foldl]
  ring

theorem val_append (l1 l2 : List Nat) :
    val (l1 ++ l2) = val l1 * 10 ^ l2.length + val l2 := by
  rw [val, List.foldl_append, val_foldl]
  rfl

theorem val_replicate_zero (k : Nat) : val (List.replicate k 0) = 0 := by
  induction k with
  | zero => rfl
  | succ k ih =>
      rw [List.replicate_succ, val_cons, ih]
      ring

theorem val_lt (ds : List Nat) (h : ∀ d ∈ ds, d < 10) : val ds < 10 ^ ds.length := by
  induction ds with
  | nil => simp [val]
  | cons d ds ih =>
      have hd : d < 10 := h d (by simp)
      have hv : val ds < 10 ^ ds.length := ih (fun x hx => h x (by simp [hx]))
      rw [val_cons, List.length_cons]
      calc d * 10 ^ ds.length + val ds < d * 10 ^ ds.length + 10 ^ ds.length := by omega
        _ = (d + 1) * 10 ^ ds.length := by ring
        _ ≤ 10 * 10 ^ ds.length := Nat.mul_le_mul_right _ (by omega)
        _ = 10 ^ (ds.length + 1) := by ring

theorem decDigitsAux_fuel : ∀ (f1 f2 n : Nat), n < 10 ^ f1 → n < 10 ^ f2 →
    1 ≤ f1 → 1 ≤ f2 → decDigitsAux f1 n = decDigitsAux f2 n := by
  intro f1
  induction f1 with
  | zero => intro f2 n h1 h2 hf1 hf2; omega
  | succ f ih =>
      intro f2 n h1 h2 hf1 hf2
      obtain ⟨g, rfl⟩ : ∃ g, f2 = g + 1 := ⟨f2 - 1, by omega⟩
      by_cases hn : n < 10
      · simp only [decDigitsAux, if_pos hn]
      · have hf : 1 ≤ f := by
          rcases Nat.eq_zero_or_pos f with h0 | h0
          · subst h0; norm_num at h1; omega
          · exact h0
        have hg : 1 ≤ g := by
          rcases Nat.eq_zero_or_pos g with h0 | h0
          · subst h0; norm_num at h2; omega
          · exact h0
        have hpf : (10:Nat) ^ (f + 1) = 10 ^ f * 10 := pow_succ 10 f
        have hpg : (10:Nat) ^ (g + 1) = 10 ^ g * 10 := pow_succ 10 g
        simp only [decDigitsAux, if_neg hn]
        congr 1
        exact ih g (n / 10) (by omega) (by omega) hf hg

theorem decDigits_eq_aux (f n : Nat) (h : n < 10 ^ f) (hf : 1 ≤ f) :
    decDigits n = decDigitsAux f n := by
  apply decDigitsAux_fuel (n + 1) f n ?_ h ?_ hf
  · have h1 : n < 10 ^ n := Nat.lt_pow_self (by omega) n
    have h2 : (10:Nat) ^ n ≤ 10 ^ (n + 1) := Nat.pow_le_pow_right (by omega) (by omega)
    omega
  · omega

theorem length_decDigitsAux : ∀ f n : Nat, (decDigitsAux f n).length ≤ f := by
  intro f
  induction f with
  | zero => intro n; simp [decDigitsAux]
  | succ f ih =>
      intro n
      by_cases hn : n < 10
      · simp [decDigitsAux, if_pos hn]
      · simp only [decDigitsAux, if_neg hn, List.length_append, List.length_cons,
          List.length_nil]
        have := ih (n / 10)
        omega

theorem decDigitsAux_lt_ten : ∀ f n d : Nat, d ∈ decDigitsAux f n → d < 10 := by
  intro f
  induction f with
  | zero => intro n d hd; simp [decDigitsAux] at hd
  | succ f ih =>
      intro n d hd
      by_cases hn : n < 10
      · simp [decDigitsAux, if_pos hn] at hd
        omega
      · simp only [decDigitsAux, if_neg hn, List.mem_append, List.mem_singleton] at hd
        rcases hd with hd | hd
        · exact ih (n / 10) d hd
        · subst hd; exact Nat.mod_lt n (by omega)

theorem val_decDigitsAux : ∀ f n : Nat, n < 10 ^ f → 1 ≤ f → val (decDigitsAux f n) = n := by
  intro f
  induction f with
  | zero => intro n h hf; omega
  | succ f ih =>
      intro n h hf
      by_cases hn : n < 10
      · simp [decDigitsAux, if_pos hn, val]
      · have hf2 : 1 ≤ f := by
          rcases Nat.eq_zero_or_pos f with h0 | h0
          · subst h0; norm_num at h; omega
          · exact h0
        have hpf : (10:Nat) ^ (f + 1) = 10 ^ f * 10 := pow_succ 10 f
        simp only [decDigitsAux, if_neg hn]
        rw [val_append, ih (n / 10) (by omega) hf2]
        have : val [n % 10] = n % 10 := by simp [val]
        rw [this, List.length_cons, List.length_nil]
        have : (10:Nat) ^ 1 = 10 := by norm_num
        omega

theorem val_decDigits (n : Nat) : val (decDigits n) = n := by
  apply val_decDigitsAux (n + 1) n ?_ (by omega)
  have h1 : n < 10 ^ n := Nat.lt_pow_self (by omega) n
  have h2 : (10:Nat) ^ n ≤ 10 ^ (n + 1) := Nat.pow_le_pow_right (by omega) (by omega)
  omega

theorem decDigits_lt_ten (n d : Nat) (h : d ∈ decDigits n) : d < 10 :=
  decDigitsAux_lt_ten (n + 1) n d h

theorem length_decDigits_le (k n : Nat) (h : n < 10 ^ k) (hk : 1 ≤ k) :
    (decDigits n).length ≤ k := by
  rw [decDigits_eq_aux k n h hk]
  exact length_decDigitsAux k n

theorem val_padDigits (i : Nat) : val (padDigits i) = i := by
  rw [padDigits, val_append, val_replicate_zero, val_decDigits]
  ring

theorem padDigits_lt_ten (i : Nat) : ∀ d ∈ padDigits i, d < 10 := by
  intro d hd
  rcases List.mem_append.mp hd with h | h
  · have := List.eq_of_mem_replicate h
    omega
  · exact decDigits_lt_ten i d h

theorem length_padDigits (i : Nat) (h : i < 100000) : (padDigits i).length = 5 := by
  have h5 : i < 10 ^ 5 := by norm_num; omega
  have hle : (decDigits i).length ≤ 5 := length_decDigits_le 5 i h5 (by omega)
  rw [padDigits, List.length_append, List.length_replicate]
  omega

theorem frameChars_eq (i : Nat) : frameChars i = (padDigits i).map digitChar := by
  rw [frameChars, padDigits, List.map_append, List.map_replicate]
  rfl

theorem digitChar_mono : ∀ e : Nat, e < 10 → ∀ d : Nat, d < e → digitChar d < digitChar e := by
  decide

theorem lex_of_val_lt : ∀ ds es : List Nat, ds.length = es.length →
    (∀ d ∈ ds, d < 10) → (∀ e ∈ es, e < 10) → val ds < val es →
    List.Lex (fun a b : Char => a < b) (ds.map digitChar) (es.map digitChar) := by
  intro ds
  induction ds with
  | nil =>
      intro es hlen _ _ hv
      cases es with
      | nil => simp [val] at hv
      | cons e es => simp at hlen
  | cons d ds ih =>
      intro es hlen hds hes hv
      cases es with
      | nil => simp at hlen
      | cons e es =>
          have hL : ds.length = es.length := by simpa using hlen
          have hd : d < 10 := hds d (by simp)
          have he : e < 10 := hes e (by simp)
          rcases Nat.lt_trichotomy d e with hlt | heq | hgt
          · exact List.Lex.rel (digitChar_mono e he d hlt)
          · subst heq
            apply List.Lex.cons
            apply ih es hL (fun x hx => hds x (by simp [hx])) (fun x hx => hes x (by simp [hx]))
            rw [val_cons, val_cons, hL] at hv
            omega
          · exfalso
            rw [val_cons, val_cons, hL] at hv
            have h2 : val es < 10 ^ es.length := val_lt es (fun x hx => hes x (by simp [hx]))
            have step0 : e * 10 ^ es.length + val es < e * 10 ^ es.length + 10 ^ es.length :=
              Nat.add_lt_add_left h2 _
            have step1 : e * 10 ^ es.length + 10 ^ es.length = (e + 1) * 10 ^ es.length := by ring
            have step2 : (e + 1) * 10 ^ es.length ≤ d * 10 ^ es.length :=
              Nat.mul_le_mul_right _ (by omega)
            have step3 : e * 10 ^ es.length + val es < d * 10 ^ es.length + val ds :=
              lt_of_lt_of_le (lt_of_lt_of_le (step1 ▸ step0) step2) (Nat.le_add_right _ _)
            exact absurd hv (Nat.lt_asymm step3)

theorem frameName_length (i : Nat) (h : i < 100000) : (frameName i).length = 5 := by
  have : (frameName i).length = (frameChars i).length := rfl
  rw [this, frameChars_eq, List.length_map, length_padDigits i h]

theorem frameName_lt (i j : Nat) (hij : i < j) (hj : j < 100000) :
    frameName i < frameName j := by
  rw [String.lt_iff_toList_lt]
  show List.Lex (fun a b : Char => a < b) (frameChars i) (frameChars j)
  rw [frameChars_eq, frameChars_eq]
  exact lex_of_val_lt (padDigits i) (padDigits j)
    (by rw [length_padDigits i (by omega), length_padDigits j hj])
    (padDigits_lt_ten i) (padDigits_lt_ten j)
    (by rw [val_padDigits, val_padDigits]; omega)

theorem frameName_injective : Function.Injective frameName := by
  intro i j h
  have hchars : frameChars i = frameChars j := congrArg String.data h
  have hval : val (padDigits i) = val (padDigits j) := by
    have h2 : (padDigits i).map digitChar = (padDigits j).map digitChar := by
      rw [← frameChars_eq, ← frameChars_eq, hchars]
    have h3 : ((padDigits i).map digitChar).map (fun c => c.toNat - 48)
        = ((padDigits j).map digitChar).map (fun c => c.toNat - 48) := by rw [h2]
    rw [List.map_map, List.map_map] at h3
    have hid : ∀ l : List Nat, (∀ d ∈ l, d < 10) →
        l.map ((fun c : Char => c.toNat - 48) ∘ digitChar) = l := by
      intro l hl
      have : ∀ d ∈ l, ((fun c : Char => c.toNat - 48) ∘ digitChar) d = d := by
        intro d hd
        have hd10 : d < 10 := hl d hd
        interval_cases d <;> rfl
      calc l.map ((fun c : Char => c.toNat - 48) ∘ digitChar)
          = l.map id := List.map_congr_left (fun d hd => this d hd)
        _ = l := List.map_id l
    rw [hid (padDigits i) (padDigits_lt_ten i), hid (padDigits j) (padDigits_lt_ten j)] at h3
    rw [h3]
  rw [val_padDigits, val_padDigits] at hval
  exact hval

theorem update_plot_none (activeDraw : Bool) (ships : List Patch) :
    update_plot none activeDraw ships = some (ships, []) := rfl

theorem update_plot_some (poses : List Pose) (activeDraw : Bool) (ships : List Patch) :
    update_plot (some poses) activeDraw ships
      = some (reconcileSpec poses ships,
          Ev.restore :: (if activeDraw then [Ev.draw] else [])) := by
  rw [update_plot, update_ships_eq]

theorem loop_cons_active (t : TickIn) (ts : List TickIn) (count : Nat) (ships : List Patch)
    (hat : t.activeTop = true) :
    init_visualization_loop (t :: ts) count ships
      = (update_plot t.readResult t.activeDraw ships).bind fun pr =>
          (init_visualization_loop ts (count + 1) pr.1).bind fun res =>
            some (res.1, res.2.1,
              Ev.pauseEv :: (pr.2 ++ Ev.saveFrame (frameName count) :: res.2.2)) := by
  simp [init_visualization_loop, hat]

theorem filterMap_saved (b : Bool) (n : String) (evs : List Ev) :
    List.filterMap savedName
        ((Ev.restore :: (if b then [Ev.draw] else [])) ++ Ev.saveFrame n :: evs)
      = n :: List.filterMap savedName evs := by
  rcases b with _ | _ <;> simp [savedName]

theorem loop_spec : ∀ (ts : List TickIn) (c0 : Nat) (ships : List Patch),
    (∀ t ∈ ts, t.activeTop = true) →
    ∃ sf evs, init_visualization_loop ts c0 ships = some (c0 + ts.length, sf, evs) ∧
      evs.filterMap savedName = (List.range' c0 ts.length).map frameName ∧
      ((∀ t ∈ ts, t.readResult = none) → sf = ships ∧ Ev.restore ∉ evs) := by
  intro ts
  induction ts with
  | nil =>
      intro c0 ships _
      exact ⟨ships, [], by simp [init_visualization_loop], by simp [List.range'],
        fun _ => ⟨rfl, by simp⟩⟩
  | cons t ts ih =>
      intro c0 ships hact
      have hat : t.activeTop = true := hact t (by simp)
      have hstep := loop_cons_active t ts c0 ships hat
      rcases hr : t.readResult with _ | poses
      · obtain ⟨sf, evs, hloop, hnames, hnone⟩ :=
          ih (c0 + 1) ships (fun x hx => hact x (by simp [hx]))
        rw [hr, update_plot_none] at hstep
        simp only [option_bind_some] at hstep
        rw [hloop] at hstep
        simp only [option_bind_some] at hstep
        refine ⟨sf, Ev.pauseEv :: ([] ++ Ev.saveFrame (frameName c0) :: evs), ?_, ?_, ?_⟩
        · rw [hstep]
          have harith : c0 + 1 + ts.length = c0 + (t :: ts).length := by
            simp [List.length_cons]
            omega
          rw [harith]
        · simp only [List.nil_append, List.filterMap_cons, savedName]
          rw [List.length_cons, List.range'_succ, List.map_cons, hnames]
        · intro hnr
          have hr2 : ∀ x ∈ ts, x.readResult = none := fun x hx => hnr x (by simp [hx])
          obtain ⟨hsf, hmem⟩ := hnone hr2
          refine ⟨hsf, ?_⟩
          simp only [List.nil_append, List.mem_cons]
          rintro (h | h | h)
          · exact absurd h (by simp)
          · exact absurd h (by simp)
          · exact hmem h
      · obtain ⟨sf, evs, hloop, hnames, _⟩ :=
          ih (c0 + 1) (reconcileSpec poses ships) (fun x hx => hact x (by simp [hx]))
        rw [hr, update_plot_some] at hstep
        simp only [option_bind_some] at hstep
        rw [hloop] at hstep
        simp only [option_bind_some] at hstep
        refine ⟨sf, Ev.pauseEv ::
          ((Ev.restore :: (if t.activeDraw then [Ev.draw] else []))
            ++ Ev.saveFrame (frameName c0) :: evs), ?_, ?_, ?_⟩
        · rw [hstep]
          have harith : c0 + 1 + ts.length = c0 + (t :: ts).length := by
            simp [List.length_cons]
            omega
          rw [harith]
        · simp only [List.filterMap_cons, savedName]
          rw [filterMap_saved t.activeDraw (frameName c0) evs, hnames,
            List.length_cons, List.range'_succ, List.map_cons]
        · intro hnr
          exact absurd (hnr t (by simp)) (by rw [hr]; simp)

/-- C3: for every tick whose pose read returns the absent value (None) the
controller performs no reconciliation and no background restore, yet still
writes exactly one frame for that tick and increments the frame counter by
one, so N consecutive ticks always produce N distinct frame files. -/
theorem absent_reads_still_produce_frames (ts : List TickIn) (c0 : Nat) (ships : List Patch)
    (h : ∀ t ∈ ts, t.activeTop = true ∧ t.readResult = none) :
    ∃ evs, init_visualization_loop ts c0 ships = some (c0 + ts.length, ships, evs) ∧
      evs.filterMap savedName = (List.range' c0 ts.length).map frameName ∧
      ((List.range' c0 ts.length).map frameName).Nodup ∧
      Ev.restore ∉ evs := by
  obtain ⟨sf, evs, hloop, hnames, hnone⟩ := loop_spec ts c0 ships (fun t ht => (h t ht).1)
  obtain ⟨hsf, hmem⟩ := hnone (fun t ht => (h t ht).2)
  subst hsf
  exact ⟨evs, hloop, hnames,
    List.Nodup.map frameName_injective (List.nodup_range' ..), hmem⟩

/-- C3 witness: two consecutive absent-read ticks still produce the two
distinct frames 00000 and 00001 and never restore the background. -/
theorem absent_reads_still_produce_frames_witness :
    ∃ evs, init_visualization_loop
        [TickIn.mk true none true, TickIn.mk true none false] 0 [] = some (0 + 2, [], evs) ∧
      evs.filterMap savedName = (List.range' 0 2).map frameName ∧
      ((List.range' 0 2).map frameName).Nodup ∧
      Ev.restore ∉ evs :=
  absent_reads_still_produce_frames
    [TickIn.mk true none true, TickIn.mk true none false] 0 []
    (by decide)

/-- C6 counterexample: at tick counter 100000 the frame name computed by
`Display.save_frame` is six characters wide, not the claimed fixed width
of five, and lexical sort order diverges from numeric order at that
boundary: the name for counter 100000 sorts before the name for 99999. -/
theorem frame_name_not_fixed_width :
    (frameName 100000).length ≠ 5 ∧ frameName 100000 < frameName 99999 := by
  constructor
  · decide
  · rw [String.lt_iff_toList_lt]
    decide

/-- C6 (amended): for every tick counter below 10^5 the frame file name is
the decimal representation of the counter zero-padded to a fixed width of
5, names are strictly increasing in lexical sort order along with the
counter, and N consecutive live ticks starting at counter 0 write exactly
the names of counters 0..N-1, in order and gapless; from counter 10^5 on
the name is the unpadded decimal representation, wider than 5. -/
theorem frame_names_padded_and_ordered :
    (∀ i : Nat, i < 100000 → (frameName i).length = 5) ∧
    (∀ i j : Nat, i < j → j < 100000 → frameName i < frameName j) ∧
    (∀ (ts : List TickIn) (ships : List Patch), (∀ t ∈ ts, t.activeTop = true) →
      ∃ cf sf evs, init_visualization_loop ts 0 ships = some (cf, sf, evs) ∧
        cf = ts.length ∧
        evs.filterMap savedName = (List.range ts.length).map frameName) := by
  refine ⟨frameName_length, frameName_lt, ?_⟩
  intro ts ships hact
  obtain ⟨sf, evs, hloop, hnames, _⟩ := loop_spec ts 0 ships hact
  refine ⟨0 + ts.length, sf, evs, hloop, by omega, ?_⟩
  rw [List.range_eq_range']
  exact hnames

/-- C6 witness: name widths, ordering and a one-tick run at counter 0. -/
theorem frame_names_padded_and_ordered_witness :
    (frameName 7).length = 5 ∧ frameName 41 < frameName 100 ∧
    (∃ cf sf evs, init_visualization_loop [TickIn.mk true none true] 0 []
        = some (cf, sf, evs) ∧ cf = 1 ∧
      evs.filterMap savedName = (List.range 1).map frameName) :=
  ⟨frame_names_padded_and_ordered.1 7 (by omega),
   frame_names_padded_and_ordered.2.1 41 100 (by omega) (by omega),
   frame_names_padded_and_ordered.2.2 [TickIn.mk true none true] [] (by decide)⟩

/-- C4 counterexample: in `Display.__init__` the background snapshot is
captured (index 2) before any static feature layer is drawn (Land is
drawn at index 3), so the claim that all static layers are rendered
before the capture is false for the standard environment. -/
theorem background_captured_before_static_draws :
    ¬ (∀ i j : Nat, ∀ nm : String,
        (display_init stdFeatures)[i]? = some (InitEv.drawFeature nm) →
        (display_init stdFeatures)[j]? = some InitEv.copyBackground → i < j) := by
  intro h
  have h32 := h 3 2 "Land" (by decide) (by decide)
  omega

/-- C4 (amended): during one-time setup the Renderer captures the
background raster snapshot BEFORE rendering the static environment layers
(all except Seabed) onto the drawing surface — so the snapshot precedes
every static feature draw and does not contain the static feature
content; the snapshot is still the thing restored first at each tick's
repaint with a present pose read. -/
theorem background_capture_precedes_draws (fs : List String) (i j : Nat) (nm : String)
    (hc : (display_init fs)[i]? = some InitEv.copyBackground)
    (hd : (display_init fs)[j]? = some (InitEv.drawFeature nm)) :
    i < j ∧
    ∀ (poses : List Pose) (act : Bool) (ships r : List Patch) (evs : List Ev),
      update_plot (some poses) act ships = some (r, evs) →
        evs.head? = some Ev.restore := by
  constructor
  · have htail : ∀ e ∈ draw_environment fs ++ [InitEv.initEventManager],
        e ≠ InitEv.copyBackground := by
      intro e he
      rcases List.mem_append.mp he with h1 | h1
      · rcases List.mem_filterMap.mp h1 with ⟨a, _, hfa⟩
        by_cases ha : a = "Seabed"
        · rw [if_pos ha] at hfa
          exact absurd hfa (by simp)
        · rw [if_neg ha] at hfa
          injection hfa with hfa
          rw [← hfa]
          simp
      · have h2 : e = InitEv.initEventManager := by simpa using h1
        rw [h2]
        simp
    have hi3 : i < 3 := by
      by_contra hge
      push_neg at hge
      have hsplit : display_init fs =
          [InitEv.formatColorbar, InitEv.formatTopography, InitEv.copyBackground]
            ++ (draw_environment fs ++ [InitEv.initEventManager]) := by
        rw [display_init, List.append_assoc]
      rw [hsplit, List.getElem?_append_right (by simpa using hge)] at hc
      obtain ⟨hlt, heq⟩ := List.getElem?_eq_some.mp hc
      exact htail _ (heq ▸ List.getElem_mem hlt) rfl
    have hj3 : 3 ≤ j := by
      by_contra hlt
      push_neg at hlt
      interval_cases j <;>
        simp [display_init, List.cons_append, List.getElem?_cons_zero,
          List.getElem?_cons_succ] at hd
    omega
  · intro poses act ships r evs h
    rw [update_plot_some] at h
    injection h with h
    have h2 := congrArg Prod.snd h
    simp only at h2
    rw [← h2]
    rfl

/-- C4 witness: for the standard environment, the capture at index 2
precedes the Land draw at index 3, and a present read restores first. -/
theorem background_capture_precedes_draws_witness :
    2 < 3 ∧
    ∀ (poses : List Pose) (act : Bool) (ships r : List Patch) (evs : List Ev),
      update_plot (some poses) act ships = some (r, evs) →
        evs.head? = some Ev.restore :=
  background_capture_precedes_draws stdFeatures 2 3 "Land" (by decide) (by decide)

/-- C5 counterexample: a read that fails because the pose file is missing
raises FileNotFoundError instead of returning the absent value, so not
every failing read is absorbed. -/
theorem missing_pose_file_read_raises :
    read_ship_poses FileState.missing = Except.error PyErr.fileNotFoundError ∧
      read_ship_poses FileState.missing ≠ Except.ok none := by
  constructor
  · rfl
  · intro h
    exact Except.noConfusion h

/-- C5 (amended): the absent value (None) is produced exactly for the
concurrent-writer failure: `read_ship_poses` returns None iff the file
open raised PermissionError; all other failing reads (missing file, empty
file, malformed numeric fields, wrong row arity) raise. -/
theorem only_permission_error_absorbed (fs : FileState) :
    read_ship_poses fs = Except.ok none ↔ fs = FileState.locked := by
  constructor
  · intro h
    cases fs with
    | locked => rfl
    | missing => exact Except.noConfusion h
    | content rows =>
        cases rows with
        | nil => exact Except.noConfusion h
        | cons r rest =>
            exfalso
            have h2 : (rest.mapM shipOfRow).map some = Except.ok none := h
            cases hm : rest.mapM shipOfRow with
            | ok l =>
                rw [hm] at h2
                simp [Except.map] at h2
            | error e =>
                rw [hm] at h2
                simp [Except.map] at h2
  · intro h
    rw [h]
    rfl

/-- C5 witness: the locked-file read returns the absent value. -/
theorem only_permission_error_absorbed_witness :
    read_ship_poses FileState.locked = Except.ok none :=
  (only_permission_error_absorbed FileState.locked).mpr rfl

theorem char_lt_iff_toNat (c d : Char) : c < d ↔ c.toNat < d.toNat :=
  ⟨fun h => h, fun h => h⟩

theorem lexLtB_iff : ∀ cs ds : List Char,
    lexLtB cs ds = true ↔ List.Lex (fun a b : Char => a < b) cs ds := by
  intro cs
  induction cs with
  | nil =>
      intro ds
      cases ds with
      | nil => simp [lexLtB, List.Lex.not_nil_right]
      | cons d ds => exact ⟨fun _ => List.Lex.nil, fun _ => rfl⟩
  | cons c cs ih =>
      intro ds
      cases ds with
      | nil => simp [lexLtB, List.Lex.not_nil_right]
      | cons d ds =>
          simp only [lexLtB]
          by_cases h1 : c.toNat < d.toNat
          · rw [if_pos h1]
            simp only [true_iff]
            exact List.Lex.rel ((char_lt_iff_toNat c d).mpr h1)
          · rw [if_neg h1]
            by_cases h2 : d.toNat < c.toNat
            · rw [if_pos h2]
              simp only [Bool.false_eq_true, false_iff]
              intro hlex
              cases hlex with
              | rel hr => exact absurd ((char_lt_iff_toNat c d).mp hr) h1
              | cons ht => omega
            · rw [if_neg h2]
              have hcd : c = d := by
                have h3 : c.toNat = d.toNat := by omega
                exact Char.eq_of_val_eq (UInt32.toNat.inj h3)
              subst hcd
              rw [ih ds]
              constructor
              · exact List.Lex.cons
              · intro hlex
                cases hlex with
                | rel hr => exact absurd ((char_lt_iff_toNat c c).mp hr) (by omega)
                | cons ht => exact ht

/-- The Bool comparator used in the claimed (sorted) assembly agrees with
the standard lexical order on path strings. -/
theorem pathLtB_iff (f g : FrameFile) : pathLtB f g = true ↔ f.path < g.path := by
  rw [pathLtB, lexLtB_iff, String.lt_iff_toList_lt]
  constructor
  · intro h
    exact h
  · intro h
    exact h

/-- C8 counterexample: with the glob returning the two frames out of
lexical order, the code assembles them in glob order, not in
lexical-sort order — the two assemblies differ. -/
theorem assembly_order_not_lexical :
    save_visualization 1 [FrameFile.mk "00001" (some "B"), FrameFile.mk "00000" (some "A")]
        ≠ save_visualization_claimed 1
          [FrameFile.mk "00001" (some "B"), FrameFile.mk "00000" (some "A")] ∧
    save_visualization 1 [FrameFile.mk "00001" (some "B"), FrameFile.mk "00000" (some "A")]
        = Except.ok ["B", "B", "A", "A"] ∧
    save_visualization_claimed 1
        [FrameFile.mk "00001" (some "B"), FrameFile.mk "00000" (some "A")]
        = Except.ok ["A", "A", "B", "B"] := by
  have e1 : save_visualization 1
      [FrameFile.mk "00001" (some "B"), FrameFile.mk "00000" (some "A")]
      = Except.ok ["B", "B", "A", "A"] := by decide
  have e2 : save_visualization_claimed 1
      [FrameFile.mk "00001" (some "B"), FrameFile.mk "00000" (some "A")]
      = Except.ok ["A", "A", "B", "B"] := by decide
  refine ⟨?_, e1, e2⟩
  intro h
  rw [e1, e2] at h
  injection h with h
  exact absurd h (by decide)

/-- C8 (amended): `ENC.save_visualization` assembles the opened images in
the order the glob returned them (the code never sorts the globbed
paths; the order is lexical only when the glob result already is), with
the first image repeated fps additional times at the start and the last
image repeated fps additional times at the end. -/
theorem assembly_glob_order_and_padding (fps : Nat) (files : List FrameFile)
    (f1 last : String) (rest : List String)
    (h : openImages files = f1 :: rest) (hl : rest.getLast? = some last) :
    save_visualization fps files
      = Except.ok (f1 :: (List.replicate fps f1 ++ rest ++ List.replicate fps last)) := by
  simp only [save_visualization, h, hl]

/-- C8 witness: three globbed files, one unreadable, assembled with
fps = 2. -/
theorem assembly_glob_order_and_padding_witness :
    save_visualization 2
        [FrameFile.mk "a" (some "X"), FrameFile.mk "b" none, FrameFile.mk "c" (some "Y")]
      = Except.ok ("X" :: (List.replicate 2 "X" ++ ["Y"] ++ List.replicate 2 "Y")) :=
  assembly_glob_order_and_padding 2
    [FrameFile.mk "a" (some "X"), FrameFile.mk "b" none, FrameFile.mk "c" (some "Y")]
    "X" "Y" ["Y"] rfl rfl

/-- C10: `ENC.save_visualization` fails whenever fewer than two frame
images could be opened: with zero opened images the unpacking
`frame1, *frames = images` raises ValueError, with exactly one the
trailing-pad indexing `frames[-1]` raises IndexError, and with two or
more it succeeds; unreadable image files are merely skipped. -/
theorem save_visualization_needs_two_images (fps : Nat) (files : List FrameFile) :
    (openImages files = [] → save_visualization fps files = Except.error PyErr.valueError) ∧
    (∀ x : String, openImages files = [x] →
        save_visualization fps files = Except.error PyErr.indexError) ∧
    ((∃ seq : List String, save_visualization fps files = Except.ok seq) ↔
      2 ≤ (openImages files).length) := by
  refine ⟨?_, ?_, ?_⟩
  · intro h
    simp only [save_visualization, h]
  · intro x h
    simp only [save_visualization, h, List.getLast?_nil]
  · constructor
    · rintro ⟨seq, hseq⟩
      rcases hoi : openImages files with _ | ⟨x, rest⟩
      · have he : save_visualization fps files = Except.error PyErr.valueError := by
          simp only [save_visualization, hoi]
        rw [he] at hseq
        exact Except.noConfusion hseq
      · rcases hrest : rest.getLast? with _ | last
        · have he : save_visualization fps files = Except.error PyErr.indexError := by
            simp only [save_visualization, hoi, hrest]
          rw [he] at hseq
          exact Except.noConfusion hseq
        · have hne : rest ≠ [] := by
            intro he
            rw [he, List.getLast?_nil] at hrest
            exact Option.noConfusion hrest
          have := List.length_pos.mpr hne
          simp only [List.length_cons]
          omega
    · intro hlen
      rcases hoi : openImages files with _ | ⟨x, rest⟩
      · rw [hoi] at hlen
        simp at hlen
      · rcases hrest : rest.getLast? with _ | last
        · have heq : rest = [] := List.getLast?_eq_none_iff.mp hrest
          rw [hoi, heq] at hlen
          simp at hlen
        · refine ⟨x :: (List.replicate fps x ++ rest ++ List.replicate fps last), ?_⟩
          simp only [save_visualization, hoi, hrest]

/-- C10 witness: a single readable frame makes the assembly raise
IndexError. -/
theorem save_visualization_needs_two_images_witness :
    save_visualization 3 [FrameFile.mk "p" (some "I")] = Except.error PyErr.indexError :=
  (save_visualization_needs_two_images 3 [FrameFile.mk "p" (some "I")]).2.1 "I" rfl

theorem slot_count_is_running_max_witness :
    (∃ r, runReconciles ([[Pose.mk "A" (1, 2, 3)], []].take 1) [] = some r ∧
        r.length = (([[Pose.mk "A" (1, 2, 3)], []].take 1).map List.length).foldl
          (fun a c => max a c) 0) ∧
    (([[Pose.mk "A" (1, 2, 3)], []].take 1).map List.length).foldl (fun a c => max a c) 0 ≤
      (([[Pose.mk "A" (1, 2, 3)], []].take 2).map List.length).foldl (fun a c => max a c) 0 :=
  ⟨(slot_count_is_running_max [[Pose.mk "A" (1, 2, 3)], []] 1).1,
   (slot_count_is_running_max [[Pose.mk "A" (1, 2, 3)], []] 1).2 2 (by omega)⟩

end Seacharts
